import Mathlib

/-!
Shallow embedding of `src/bencode2json.c` (gkbrk/scripts), a transcoder that
reads one bencoded value from a byte stream and writes the equivalent JSON.

Modelling conventions, used throughout:

* A byte stream is a `List Nat` of byte values; `get_character` is reading the
  head, `unget_character c` is consing `c` back on.  Reading at end of stream
  is modelled as failure of the whole run (`none`): the C `getc` would return
  `EOF` there and, on the paths the claims exercise, the program either never
  completes the value (`convert_integer` loops forever, since `(char)EOF` is
  never `'e'`) or produces garbage the specification does not describe.
* The C functions are loops over a global stream; each becomes a function
  from the input stream to `(trace, Option (output bytes, remaining input))`.
  The trace records every `get_character`/`unget_character` call in order, so
  that the single-byte-pushback invariant (claim C9) can be stated.  Mutual
  recursion between `convert_value` and the container converters is made
  total with a fuel argument; fuel running out yields `none`, and every
  theorem quantifies over all sufficiently large fuels.
* `atoi` returns `int` in C and overflow of the digit value is undefined
  behaviour there; the model takes the mathematical value of the parsed
  digits, which is the reading the specification uses ("interpret the
  accumulated digits as a decimal unsigned integer").
* `isalnum`/`ispunct` are applied in the C default locale to a (signed) char;
  the model classifies the byte value by the ASCII table, on which both
  agree for all byte values (bytes 0x80..0xff are classified by glibc as
  neither alphanumeric nor punctuation, like here).
-/

/-- One I/O event of the byte-stream interface: a byte returned by
`get_character`, or a byte handed back via `unget_character`. -/
inductive Event where
  | got : Nat → Event
  | ungot : Nat → Event
deriving DecidableEq, Repr

/-- Result of running one converter: the I/O event trace, and on a completed
run the bytes written via `output_character` together with the rest of the
input stream. -/
abbrev Res := List Event × Option (List Nat × List Nat)

/-- Configuration constant `MAX_INT_LEN` of `bencode2json.c` (line 35). -/
def MAX_INT_LEN : Nat := 50

/-- ASCII `isspace` of the C default locale: space and 0x09..0x0d. -/
def isspace (c : Nat) : Bool := c = 32 || (9 ≤ c && c ≤ 13)

/-- ASCII `isalnum` of the C default locale: digits and latin letters. -/
def isalnum (c : Nat) : Bool :=
  (48 ≤ c && c ≤ 57) || (65 ≤ c && c ≤ 90) || (97 ≤ c && c ≤ 122)

/-- ASCII `ispunct` of the C default locale: the printable characters that
are neither alphanumeric nor the space. -/
def ispunct (c : Nat) : Bool :=
  (33 ≤ c && c ≤ 47) || (58 ≤ c && c ≤ 64) || (91 ≤ c && c ≤ 96) || (123 ≤ c && c ≤ 126)

/-- Value of a list of ASCII digit bytes read as a decimal numeral. -/
def decValue (ds : List Nat) : Nat := ds.foldl (fun a d => 10 * a + (d - 48)) 0

/-- Splits a byte list into its maximal leading run of ASCII digits and the
remainder; the digit-consuming core of C `atoi`. -/
def takeDigits : List Nat → List Nat × List Nat
  | [] => ([], [])
  | c :: rest =>
    if 48 ≤ c && c ≤ 57 then
      match takeDigits rest with
      | (ds, rem) => (c :: ds, rem)
    else ([], c :: rest)

/-- C `atoi` on a byte list (the null terminator is the end of the list):
skip leading whitespace, an optional sign, then the value of the leading
digit run.  The mathematical value is taken; overflow of C `int` is
undefined behaviour in the source. -/
def atoiVal (s : List Nat) : Int :=
  match s.dropWhile isspace with
  | [] => 0
  | c :: r =>
    if c = 43 then (decValue (takeDigits r).1 : Int)
    else if c = 45 then -(decValue (takeDigits r).1 : Int)
    else (decValue (takeDigits (c :: r)).1 : Int)

/-- Lowercase hexadecimal digit byte, as produced by `sprintf "%02x"`. -/
def hexDigit (n : Nat) : Nat := if n < 10 then 48 + n else 87 + n

/-- Body of the escaping loop of `convert_string` (lines 156-177): the bytes
output for one payload byte `c`.  Quote and backslash are escaped with a
backslash; alphanumerics, punctuation and the space pass through; every
other byte becomes `\u00XX` with two lowercase hex digits of the byte. -/
def escape_byte (c : Nat) : List Nat :=
  if c = 34 || c = 92 then [92, c]
  else if isalnum c || ispunct c || c = 32 then [c]
  else [92, 117, 48, 48, hexDigit (c / 16), hexDigit (c % 16)]

/-- `convert_integer` (lines 67-76): called after the `i` tag; copies bytes
to the output until the terminator byte `e` (101), which is consumed but not
written.  At end of stream the C loop never exits (`(char)EOF` is not `e`),
modelled as `none` for every fuel. -/
def convert_integer : Nat → List Nat → Res
  | 0, _ => ([], none)
  | _, [] => ([], none)
  | f+1, c :: rest =>
    if c = 101 then ([Event.got c], some ([], rest))
    else
      match convert_integer f rest with
      | (t, none) => (Event.got c :: t, none)
      | (t, some (out, rem)) => (Event.got c :: t, some (c :: out, rem))

/-- Loop of `read_count` (lines 130-140) with the accumulated contents of
`lenBuf` as a parameter.  A byte `:` (58) ends the loop and is consumed;
any other byte is appended to the buffer, and once the buffer holds
`MAX_INT_LEN` bytes the loop breaks at once, leaving the rest of the input
(a `:` included) unread. -/
def read_count_loop : Nat → List Nat → List Nat → List Event × Option (List Nat × List Nat)
  | 0, _, _ => ([], none)
  | _, _, [] => ([], none)
  | f+1, lenBuf, c :: rest =>
    if c = 58 then ([Event.got c], some (lenBuf, rest))
    else if MAX_INT_LEN ≤ lenBuf.length + 1 then ([Event.got c], some (lenBuf ++ [c], rest))
    else
      match read_count_loop f (lenBuf ++ [c]) rest with
      | (t, r) => (Event.got c :: t, r)

/-- `read_count` (lines 126-144): accumulates the length prefix into
`lenBuf` and returns `atoi` of the buffer (null-terminated at its end; the
conversion of the `int` result to `size_t` is `Int.toNat` here, faithful for
the non-negative values a digit prefix produces). -/
def read_count (f : Nat) (input : List Nat) : List Event × Option (Nat × List Nat) :=
  match read_count_loop f [] input with
  | (t, none) => (t, none)
  | (t, some (lenBuf, rest)) => (t, some ((atoiVal lenBuf).toNat, rest))

/-- Indices into `lenBuf` written by the loop of `read_count`, starting from
buffer length `len`, paired with the final buffer length: iteration `j`
writes `lenBuf[lenBufLen - 1]` just after incrementing `lenBufLen`. -/
def read_count_writes_loop : Nat → Nat → List Nat → Option (List Nat × Nat)
  | 0, _, _ => none
  | _, _, [] => none
  | f+1, len, c :: rest =>
    if c = 58 then some ([], len)
    else if MAX_INT_LEN ≤ len + 1 then some ([len + 1 - 1], len + 1)
    else
      match read_count_writes_loop f (len + 1) rest with
      | none => none
      | some (ws, final) => some ((len + 1 - 1) :: ws, final)

/-- All indices into `lenBuf` written by one run of `read_count`: the loop's
writes followed by the terminating null byte written at `lenBuf[lenBufLen]`
(line 141). -/
def read_count_writes (f : Nat) (input : List Nat) : Option (List Nat) :=
  match read_count_writes_loop f 0 input with
  | none => none
  | some (ws, final) => some (ws ++ [final])

/-- Payload loop of `convert_string` (lines 156-177): reads exactly `count`
bytes and outputs the escaped form of each. -/
def convert_string_payload : Nat → List Nat → Res
  | 0, input => ([], some ([], input))
  | _+1, [] => ([], none)
  | n+1, c :: rest =>
    match convert_string_payload n rest with
    | (t, none) => (Event.got c :: t, none)
    | (t, some (out, rem)) => (Event.got c :: t, some (escape_byte c ++ out, rem))

/-- `convert_string` (lines 146-180): parses the length prefix with
`read_count`, then outputs a double quote, the escaped payload of exactly
that many bytes, and a closing double quote. -/
def convert_string (f : Nat) (input : List Nat) : Res :=
  match read_count f input with
  | (t, none) => (t, none)
  | (t, some (count, rest)) =>
    match convert_string_payload count rest with
    | (t2, none) => (t ++ t2, none)
    | (t2, some (out, rem)) => (t ++ t2, some (34 :: (out ++ [34]), rem))

mutual

/-- `convert_value` (lines 185-204): reads one byte and dispatches on it:
`i` (105) to the integer converter, `l` (108) to the list converter, `d`
(100) to the dictionary converter; any other byte is pushed back and the
string converter is invoked. -/
def convert_value : Nat → List Nat → Res
  | 0, _ => ([], none)
  | _, [] => ([], none)
  | f+1, c :: rest =>
    if c = 105 then
      match convert_integer f rest with
      | (t, r) => (Event.got c :: t, r)
    else if c = 108 then
      match convert_list f rest with
      | (t, r) => (Event.got c :: t, r)
    else if c = 100 then
      match convert_dictionary f rest with
      | (t, r) => (Event.got c :: t, r)
    else
      match convert_string f (c :: rest) with
      | (t, r) => (Event.got c :: Event.ungot c :: t, r)

/-- `convert_list` (lines 80-99): writes `[`, runs the element loop, writes
`]` after the terminating `e` has been consumed. -/
def convert_list : Nat → List Nat → Res
  | 0, _ => ([], none)
  | f+1, input =>
    match convert_list_loop f false input with
    | (t, none) => (t, none)
    | (t, some (out, rem)) => (t, some (91 :: (out ++ [93]), rem))

/-- Loop of `convert_list` (lines 85-96), with the `output` flag as the
`started` parameter: peeks one byte; `e` (101) ends the loop (consumed, not
pushed back); otherwise the byte is pushed back, a `,` separator is written
before every element except the first, and `convert_value` converts one
element. -/
def convert_list_loop : Nat → Bool → List Nat → Res
  | 0, _, _ => ([], none)
  | _, _, [] => ([], none)
  | f+1, started, c :: rest =>
    if c = 101 then ([Event.got c], some ([], rest))
    else
      match convert_value f (c :: rest) with
      | (t, none) => (Event.got c :: Event.ungot c :: t, none)
      | (t, some (out1, rem1)) =>
        match convert_list_loop f true rem1 with
        | (t2, none) => (Event.got c :: Event.ungot c :: (t ++ t2), none)
        | (t2, some (out2, rem2)) =>
          (Event.got c :: Event.ungot c :: (t ++ t2),
           some ((if started then 44 :: out1 else out1) ++ out2, rem2))

/-- `convert_dictionary` (lines 101-123): writes `{`, runs the pair loop,
writes `}` after the terminating `e` has been consumed. -/
def convert_dictionary : Nat → List Nat → Res
  | 0, _ => ([], none)
  | f+1, input =>
    match convert_dictionary_loop f false input with
    | (t, none) => (t, none)
    | (t, some (out, rem)) => (t, some (123 :: (out ++ [125]), rem))

/-- Loop of `convert_dictionary` (lines 106-120): like the list loop, but
each iteration converts a key with `convert_value`, writes `:` (58), and
converts a value with `convert_value`. -/
def convert_dictionary_loop : Nat → Bool → List Nat → Res
  | 0, _, _ => ([], none)
  | _, _, [] => ([], none)
  | f+1, started, c :: rest =>
    if c = 101 then ([Event.got c], some ([], rest))
    else
      match convert_value f (c :: rest) with
      | (t, none) => (Event.got c :: Event.ungot c :: t, none)
      | (t, some (outk, rem1)) =>
        match convert_value f rem1 with
        | (t2, none) => (Event.got c :: Event.ungot c :: (t ++ t2), none)
        | (t2, some (outv, rem2)) =>
          match convert_dictionary_loop f true rem2 with
          | (t3, none) => (Event.got c :: Event.ungot c :: (t ++ t2 ++ t3), none)
          | (t3, some (out3, rem3)) =>
            (Event.got c :: Event.ungot c :: (t ++ t2 ++ t3),
             some ((if started then 44 :: (outk ++ 58 :: outv) else outk ++ 58 :: outv) ++ out3,
                   rem3))

end

/-- `main` (lines 206-211): one call to `convert_value`, then return 0.
`none` models a run of the C program that never returns. -/
def c_main (f : Nat) (input : List Nat) : Option Nat :=
  match convert_value f input with
  | (_, none) => none
  | (_, some _) => some 0

/-!
Specification side: the bencode value grammar of the spec (section 6), its
canonical encoding, the JSON text the spec promises for each value, and a
JSON reader used for the round-trip claim C8.
-/

/-- Decimal ASCII digits of `n / 10^k`-style recursion with explicit fuel
(so that concrete instances evaluate by kernel reduction); meaningful when
`n < f`. -/
def natToDecAux : Nat → Nat → List Nat
  | 0, _ => []
  | f+1, n => if n < 10 then [48 + n] else natToDecAux f (n / 10) ++ [48 + n % 10]

/-- Canonical decimal ASCII numeral of a natural number (no leading zeros;
`0` is the single byte `48`). -/
def natToDec (n : Nat) : List Nat := natToDecAux (n + 1) n

/-- Canonical decimal ASCII numeral of an integer, with a leading `-` (45)
for negative values. -/
def intToDec (n : Int) : List Nat :=
  if n < 0 then 45 :: natToDec (-n).toNat else natToDec n.toNat

/-- Bencode values as the spec's section 6 grammar: integers, byte strings,
lists, and dictionaries of byte-string keys and values. -/
inductive Bencode where
  | int : Int → Bencode
  | str : List Nat → Bencode
  | list : List Bencode → Bencode
  | dict : List (List Nat × Bencode) → Bencode

/-- Bencode encoding of a byte string: decimal length prefix, `:` (58), and
the payload bytes. -/
def encodeStr (s : List Nat) : List Nat := natToDec s.length ++ 58 :: s

mutual

/-- Bencode encoding of a value: `i<digits>e`, `<len>:<bytes>`,
`l<values>e`, `d(<key><value>)*e`. -/
def encode : Bencode → List Nat
  | .int n => 105 :: (intToDec n ++ [101])
  | .str s => encodeStr s
  | .list xs => 108 :: (encodeList xs ++ [101])
  | .dict ps => 100 :: (encodePairs ps ++ [101])

/-- Concatenated encodings of a sequence of values. -/
def encodeList : List Bencode → List Nat
  | [] => []
  | x :: xs => encode x ++ encodeList xs

/-- Concatenated encodings of a sequence of key/value pairs. -/
def encodePairs : List (List Nat × Bencode) → List Nat
  | [] => []
  | (k, v) :: ps => encodeStr k ++ (encode v ++ encodePairs ps)

end

/-- JSON string literal for a byte-string payload: quote, escaped bytes,
quote. -/
def jsonStr (s : List Nat) : List Nat := 34 :: ((s.map escape_byte).flatten ++ [34])

mutual

/-- JSON text the transcoder is specified to produce for a value. -/
def json : Bencode → List Nat
  | .int n => intToDec n
  | .str s => jsonStr s
  | .list xs => 91 :: (jsonList xs false ++ [93])
  | .dict ps => 123 :: (jsonPairs ps false ++ [125])

/-- JSON texts of a sequence of array elements, a `,` (44) before every
element except the first (`started = false` marks the first). -/
def jsonList : List Bencode → Bool → List Nat
  | [], _ => []
  | x :: xs, started => (if started then 44 :: json x else json x) ++ jsonList xs true

/-- JSON texts of a sequence of object members `key : value`, a `,` (44)
before every member except the first. -/
def jsonPairs : List (List Nat × Bencode) → Bool → List Nat
  | [], _ => []
  | (k, v) :: ps, started =>
    (if started then 44 :: (jsonStr k ++ 58 :: json v) else jsonStr k ++ 58 :: json v) ++
      jsonPairs ps true

end

mutual

/-- Well-formedness used by the functional-correctness claims: every string
length prefix (the decimal numeral of the payload length) fits in at most
`MAX_INT_LEN - 1` digits, so `read_count` accepts it whole. -/
def WF : Bencode → Bool
  | .int _ => true
  | .str s => decide ((natToDec s.length).length ≤ MAX_INT_LEN - 1)
  | .list xs => WFList xs
  | .dict ps => WFPairs ps

/-- All values of a list are well formed. -/
def WFList : List Bencode → Bool
  | [] => true
  | x :: xs => WF x && WFList xs

/-- All keys and values of a pair list are well formed. -/
def WFPairs : List (List Nat × Bencode) → Bool
  | [] => true
  | (k, v) :: ps =>
    decide ((natToDec k.length).length ≤ MAX_INT_LEN - 1) && (WF v && WFPairs ps)

end

mutual

/-- Every string payload (keys included) consists of printable ASCII bytes
(0x20..0x7e), the restriction of the round-trip claim C8. -/
def printableV : Bencode → Bool
  | .int _ => true
  | .str s => s.all fun b => decide (32 ≤ b ∧ b ≤ 126)
  | .list xs => printableL xs
  | .dict ps => printableP ps

/-- All values of a list have printable payloads. -/
def printableL : List Bencode → Bool
  | [] => true
  | x :: xs => printableV x && printableL xs

/-- All keys and values of a pair list have printable payloads. -/
def printableP : List (List Nat × Bencode) → Bool
  | [] => true
  | (k, v) :: ps => (k.all fun b => decide (32 ≤ b ∧ b ≤ 126)) && (printableV v && printableP ps)

end

mutual

/-- Fuel sufficient for `convert_value` to consume the encoding of a value:
one unit per function entry and per byte read in the fuelled loops. -/
def bound : Bencode → Nat
  | .int n => (intToDec n).length + 2
  | .str s => (natToDec s.length).length + 3
  | .list xs => boundList xs + 2
  | .dict ps => boundPairs ps + 2

/-- Fuel sufficient for the list loop over the encodings of `xs`. -/
def boundList : List Bencode → Nat
  | [] => 1
  | x :: xs => 1 + max (bound x) (boundList xs)

/-- Fuel sufficient for the dictionary loop over the encodings of `ps`. -/
def boundPairs : List (List Nat × Bencode) → Nat
  | [] => 1
  | (k, v) :: ps => 1 + max ((natToDec k.length).length + 3) (max (bound v) (boundPairs ps))

end

/-- Escaping rule exactly as claim C2 words it: a backslash followed by the
byte itself for `"` and `\`; the byte unescaped if it is alphanumeric,
punctuation, or space in ASCII; otherwise the six bytes `\u00XX` with `XX`
the two lowercase hexadecimal digits of the byte value. -/
def escapeSpec (b : Nat) : List Nat :=
  if b = 34 ∨ b = 92 then [92, b]
  else if (48 ≤ b ∧ b ≤ 57) ∨ (65 ≤ b ∧ b ≤ 90) ∨ (97 ≤ b ∧ b ≤ 122) ∨
          (33 ≤ b ∧ b ≤ 47) ∨ (58 ≤ b ∧ b ≤ 64) ∨ (91 ≤ b ∧ b ≤ 96) ∨
          (123 ≤ b ∧ b ≤ 126) ∨ b = 32 then [b]
  else [92, 117, 48, 48, hexDigit (b / 16), hexDigit (b % 16)]

/-- Reads a JSON string body (after the opening quote) up to the closing
quote, undoing backslash escapes; the content and the remaining input. -/
def json_read_str : List Nat → Option (List Nat × List Nat)
  | [] => none
  | c :: rest =>
    if c = 34 then some ([], rest)
    else if c = 92 then
      match rest with
      | [] => none
      | d :: rest2 =>
        match json_read_str rest2 with
        | none => none
        | some (s, rem) => some (d :: s, rem)
    else
      match json_read_str rest with
      | none => none
      | some (s, rem) => some (c :: s, rem)

/-- Reads a JSON integer: an optional `-` (45) followed by a nonempty digit
run. -/
def json_read_int (input : List Nat) : Option (Int × List Nat) :=
  match input with
  | [] => none
  | c :: rest =>
    if c = 45 then
      match takeDigits rest with
      | ([], _) => none
      | (ds, rem) => some (-(decValue ds : Int), rem)
    else
      match takeDigits (c :: rest) with
      | ([], _) => none
      | (ds, rem) => some ((decValue ds : Int), rem)

mutual

/-- Reads one JSON value, dispatching on the first byte: `[` an array, `{`
an object, `"` a string, anything else an integer numeral.  This is the
reference JSON decoder of claim C8. -/
def json_read : Nat → List Nat → Option (Bencode × List Nat)
  | 0, _ => none
  | _, [] => none
  | f+1, c :: rest =>
    if c = 91 then
      match json_read_array f rest false with
      | none => none
      | some (xs, rem) => some (.list xs, rem)
    else if c = 123 then
      match json_read_object f rest false with
      | none => none
      | some (ps, rem) => some (.dict ps, rem)
    else if c = 34 then
      match json_read_str rest with
      | none => none
      | some (s, rem) => some (.str s, rem)
    else
      match json_read_int (c :: rest) with
      | none => none
      | some (n, rem) => some (.int n, rem)

/-- Reads the elements of a JSON array up to `]`, a `,` expected before
every element except the first. -/
def json_read_array : Nat → List Nat → Bool → Option (List Bencode × List Nat)
  | 0, _, _ => none
  | _, [], _ => none
  | f+1, c :: rest, started =>
    if c = 93 then some ([], rest)
    else if started ∧ c ≠ 44 then none
    else
      match json_read f (if started then rest else c :: rest) with
      | none => none
      | some (x, rem1) =>
        match json_read_array f rem1 true with
        | none => none
        | some (xs, rem2) => some (x :: xs, rem2)

/-- Reads the members of a JSON object up to `}`: a string key, `:`, a
value, with `,` between members. -/
def json_read_object : Nat → List Nat → Bool → Option (List (List Nat × Bencode) × List Nat)
  | 0, _, _ => none
  | _, [], _ => none
  | f+1, c :: rest, started =>
    if c = 125 then some ([], rest)
    else if started ∧ c ≠ 44 then none
    else
      match (if started then rest else c :: rest) with
      | 34 :: body =>
        match json_read_str body with
        | none => none
        | some (k, rem1) =>
          match rem1 with
          | 58 :: rem2 =>
            match json_read f rem2 with
            | none => none
            | some (v, rem3) =>
              match json_read_object f rem3 true with
              | none => none
              | some (ps, rem4) => some ((k, v) :: ps, rem4)
          | _ => none
      | _ => none

end

mutual

/-- Fuel sufficient for `json_read` on the JSON text of a value. -/
def jbound : Bencode → Nat
  | .int _ => 1
  | .str _ => 1
  | .list xs => jboundList xs + 1
  | .dict ps => jboundPairs ps + 1

/-- Fuel sufficient for the array loop on the JSON texts of `xs`. -/
def jboundList : List Bencode → Nat
  | [] => 1
  | x :: xs => 1 + max (jbound x) (jboundList xs)

/-- Fuel sufficient for the object loop on the JSON texts of `ps`. -/
def jboundPairs : List (List Nat × Bencode) → Nat
  | [] => 1
  | (_, v) :: ps => 1 + max (jbound v) (jboundPairs ps)

end

/-- Checks an I/O trace starting from knowledge of the most recently read
byte (`last`, `none` when no byte may be pushed back): every `ungot b` must
happen while the most recent event is a read of that same byte `b`, and
clears that knowledge, so a second `ungot` before the next `got` fails. -/
def okAux : Option Nat → List Event → Bool
  | _, [] => true
  | _, Event.got b :: t => okAux (some b) t
  | last, Event.ungot b :: t =>
    (match last with
     | some b' => b = b'
     | none => false) && okAux none t

/-- Single-byte-pushback invariant of a whole trace: `unget_character` is
never called twice between two reads, and always with the byte the most
recent `get_character` returned. -/
def okEvents (t : List Event) : Bool := okAux none t

/-!
Lemmas about decimal numerals and `atoi`.
-/

theorem decValue_append_digit (xs : List Nat) (d : Nat) :
    decValue (xs ++ [d]) = 10 * decValue xs + (d - 48) := by
  simp [decValue, List.foldl_append]

theorem natToDecAux_spec :
    ∀ f n, n < f →
      (∀ d ∈ natToDecAux f n, 48 ≤ d ∧ d ≤ 57) ∧
        decValue (natToDecAux f n) = n ∧ natToDecAux f n ≠ [] := by
  intro f
  induction f with
  | zero => intro n h; omega
  | succ f ih =>
    intro n h
    by_cases h10 : n < 10
    · refine ⟨?_, ?_, ?_⟩
      · intro d hd
        simp only [natToDecAux, if_pos h10, List.mem_singleton] at hd
        omega
      · simp only [natToDecAux, if_pos h10, decValue, List.foldl]
        omega
      · simp [natToDecAux, if_pos h10]
    · have hdiv : n / 10 < n := Nat.div_lt_self (by omega) (by omega)
      have hf : n / 10 < f := by omega
      obtain ⟨hd, hv, hne⟩ := ih (n / 10) hf
      refine ⟨?_, ?_, ?_⟩
      · intro d hdm
        simp only [natToDecAux, if_neg h10, List.mem_append, List.mem_singleton] at hdm
        rcases hdm with hdm | hdm
        · exact hd d hdm
        · subst hdm; omega
      · simp only [natToDecAux, if_neg h10, decValue_append_digit, hv]
        omega
      · simp [natToDecAux, if_neg h10]

theorem natToDec_digits (n : Nat) : ∀ d ∈ natToDec n, 48 ≤ d ∧ d ≤ 57 :=
  (natToDecAux_spec (n + 1) n (Nat.lt_succ_self n)).1

theorem natToDec_value (n : Nat) : decValue (natToDec n) = n :=
  (natToDecAux_spec (n + 1) n (Nat.lt_succ_self n)).2.1

theorem natToDec_ne_nil (n : Nat) : natToDec n ≠ [] :=
  (natToDecAux_spec (n + 1) n (Nat.lt_succ_self n)).2.2

theorem intToDec_mem (n : Int) : ∀ d ∈ intToDec n, d = 45 ∨ (48 ≤ d ∧ d ≤ 57) := by
  intro d hd
  unfold intToDec at hd
  by_cases h : n < 0
  · rw [if_pos h] at hd
    rcases List.mem_cons.mp hd with h45 | hdig
    · exact Or.inl h45
    · exact Or.inr (natToDec_digits _ d hdig)
  · rw [if_neg h] at hd
    exact Or.inr (natToDec_digits _ d hd)

theorem intToDec_not_e (n : Int) : 101 ∉ intToDec n := by
  intro h
  have := intToDec_mem n 101 h
  omega

theorem takeDigits_digits_append (ds rest : List Nat)
    (hds : ∀ d ∈ ds, 48 ≤ d ∧ d ≤ 57)
    (hrest : ∀ d, rest.head? = some d → ¬(48 ≤ d ∧ d ≤ 57)) :
    takeDigits (ds ++ rest) = (ds, rest) := by
  induction ds with
  | nil =>
    cases rest with
    | nil => rfl
    | cons c r =>
      have hc := hrest c rfl
      have : ¬(48 ≤ c && c ≤ 57) = true := by
        simp only [Bool.and_eq_true, decide_eq_true_eq]
        omega
      simp [takeDigits, this]
  | cons d ds ih =>
    have hd := hds d (List.mem_cons_self d ds)
    have hdb : (48 ≤ d && d ≤ 57) = true := by
      simp only [Bool.and_eq_true, decide_eq_true_eq]
      omega
    have ihds : ∀ x ∈ ds, 48 ≤ x ∧ x ≤ 57 := fun x hx => hds x (List.mem_cons_of_mem d hx)
    simp [takeDigits, hdb, ih ihds]

theorem atoiVal_digits (ds : List Nat) (hds : ∀ d ∈ ds, 48 ≤ d ∧ d ≤ 57) :
    atoiVal ds = (decValue ds : Int) := by
  have hdrop : ds.dropWhile isspace = ds := by
    cases ds with
    | nil => rfl
    | cons d t =>
      have hd := hds d (List.mem_cons_self d t)
      have : isspace d = false := by
        simp only [isspace, Bool.or_eq_false_iff, Bool.and_eq_false_iff, decide_eq_false_iff_not]
        omega
      simp [List.dropWhile, this]
  have htake : takeDigits ds = (ds, []) := by
    have := takeDigits_digits_append ds [] hds (by intro d h; simp at h)
    simpa using this
  unfold atoiVal
  rw [hdrop]
  cases ds with
  | nil => simp [decValue]
  | cons d t =>
    have hd := hds d (List.mem_cons_self d t)
    have h43 : d ≠ 43 := by omega
    have h45 : d ≠ 45 := by omega
    simp only [if_neg h43, if_neg h45, htake]

/-!
Specifications of the leaf converters.
-/

theorem convert_integer_spec :
    ∀ ds f rest, 101 ∉ ds → ds.length + 1 ≤ f →
      (convert_integer f (ds ++ 101 :: rest)).2 = some (ds, rest) := by
  intro ds
  induction ds with
  | nil =>
    intro f rest _ hf
    cases f with
    | zero => omega
    | succ f => simp [convert_integer]
  | cons d ds ih =>
    intro f rest hne hf
    cases f with
    | zero => simp at hf
    | succ f =>
      have hd : d ≠ 101 := fun h => hne (by simp [h])
      have hih := ih f rest (fun h => hne (List.mem_cons_of_mem d h))
        (by simp only [List.length_cons] at hf; omega)
      simp only [List.cons_append, convert_integer, if_neg hd]
      cases hm : convert_integer f (ds ++ 101 :: rest) with
      | mk t r =>
        rw [hm] at hih
        simp only at hih
        subst hih
        simp

theorem read_count_loop_spec :
    ∀ ds buf rest f, (∀ d ∈ ds, d ≠ 58) → buf.length + ds.length + 1 ≤ MAX_INT_LEN →
      ds.length + 1 ≤ f →
      (read_count_loop f buf (ds ++ 58 :: rest)).2 = some (buf ++ ds, rest) := by
  intro ds
  induction ds with
  | nil =>
    intro buf rest f _ _ hf
    cases f with
    | zero => simp at hf
    | succ f => simp [read_count_loop]
  | cons d ds ih =>
    intro buf rest f hne hcap hf
    cases f with
    | zero => simp at hf
    | succ f =>
      have hd : d ≠ 58 := hne d (List.mem_cons_self d ds)
      have hcap' : ¬ MAX_INT_LEN ≤ buf.length + 1 := by
        simp only [List.length_cons] at hcap
        omega
      have hih := ih (buf ++ [d]) rest f (fun x hx => hne x (List.mem_cons_of_mem d hx))
        (by simp only [List.length_append, List.length_cons, List.length_nil] at hcap ⊢; omega)
        (by simp only [List.length_cons] at hf; omega)
      simp only [List.cons_append, read_count_loop, if_neg hd, if_neg hcap']
      cases hm : read_count_loop f (buf ++ [d]) (ds ++ 58 :: rest) with
      | mk t r =>
        rw [hm] at hih
        simp only at hih
        subst hih
        simp

theorem read_count_loop_full :
    ∀ ds buf rest f, (∀ d ∈ ds, d ≠ 58) → buf.length + ds.length = MAX_INT_LEN →
      ds ≠ [] → ds.length ≤ f →
      (read_count_loop f buf (ds ++ rest)).2 = some (buf ++ ds, rest) := by
  intro ds
  induction ds with
  | nil => intro _ _ _ _ _ hne _; exact absurd rfl hne
  | cons d ds ih =>
    intro buf rest f hne hcap _ hf
    cases f with
    | zero => simp at hf
    | succ f =>
      have hd : d ≠ 58 := hne d (List.mem_cons_self d ds)
      cases ds with
      | nil =>
        have hful : MAX_INT_LEN ≤ buf.length + 1 := by
          simp only [List.length_cons, List.length_nil] at hcap
          omega
        simp [read_count_loop, if_neg hd, if_pos hful]
      | cons d2 ds2 =>
        have hcap' : ¬ MAX_INT_LEN ≤ buf.length + 1 := by
          simp only [List.length_cons] at hcap
          omega
        have hih := ih (buf ++ [d]) rest f (fun x hx => hne x (List.mem_cons_of_mem d hx))
          (by simp only [List.length_append, List.length_cons, List.length_nil] at hcap ⊢; omega)
          (by simp) (by simp only [List.length_cons] at hf ⊢; omega)
        simp only [List.cons_append, read_count_loop, if_neg hd, if_neg hcap']
        cases hm : read_count_loop f (buf ++ [d]) ((d2 :: ds2) ++ rest) with
        | mk t r =>
          rw [hm] at hih
          simp only at hih
          subst hih
          simp

theorem read_count_spec (ds rest : List Nat) (f : Nat)
    (hds : ∀ d ∈ ds, 48 ≤ d ∧ d ≤ 57) (hlen : ds.length + 1 ≤ MAX_INT_LEN)
    (hf : ds.length + 1 ≤ f) :
    (read_count f (ds ++ 58 :: rest)).2 = some (decValue ds, rest) := by
  have h58 : ∀ d ∈ ds, d ≠ 58 := fun d hd => by have := hds d hd; omega
  have hloop := read_count_loop_spec ds [] rest f h58 (by simpa using hlen) hf
  unfold read_count
  cases hm : read_count_loop f [] (ds ++ 58 :: rest) with
  | mk t r =>
    rw [hm] at hloop
    simp only [List.nil_append] at hloop
    subst hloop
    simp [atoiVal_digits ds hds]

theorem read_count_spec_full (ds rest : List Nat) (f : Nat)
    (hds : ∀ d ∈ ds, 48 ≤ d ∧ d ≤ 57) (hlen : ds.length = MAX_INT_LEN)
    (hf : MAX_INT_LEN ≤ f) :
    (read_count f (ds ++ rest)).2 = some (decValue ds, rest) := by
  have h58 : ∀ d ∈ ds, d ≠ 58 := fun d hd => by have := hds d hd; omega
  have hne : ds ≠ [] := by
    intro h
    rw [h] at hlen
    simp [MAX_INT_LEN] at hlen
  have hloop := read_count_loop_full ds [] rest f h58 (by simpa using hlen) hne (by omega)
  unfold read_count
  cases hm : read_count_loop f [] (ds ++ rest) with
  | mk t r =>
    rw [hm] at hloop
    simp only [List.nil_append] at hloop
    subst hloop
    simp [atoiVal_digits ds hds]

theorem convert_string_payload_spec :
    ∀ payload rest, (convert_string_payload payload.length (payload ++ rest)).2 =
      some ((payload.map escape_byte).flatten, rest) := by
  intro payload
  induction payload with
  | nil => intro rest; simp [convert_string_payload]
  | cons b payload ih =>
    intro rest
    simp only [List.length_cons, List.cons_append, convert_string_payload]
    cases hm : convert_string_payload payload.length (payload ++ rest) with
    | mk t r =>
      have hih := ih rest
      rw [hm] at hih
      simp only at hih
      subst hih
      simp

theorem convert_string_spec (s rest : List Nat) (f : Nat)
    (hlen : (natToDec s.length).length + 1 ≤ MAX_INT_LEN)
    (hf : (natToDec s.length).length + 1 ≤ f) :
    (convert_string f (encodeStr s ++ rest)).2 = some (jsonStr s, rest) := by
  have hin : encodeStr s ++ rest = natToDec s.length ++ 58 :: (s ++ rest) := by
    simp [encodeStr]
  have hrc := read_count_spec (natToDec s.length) (s ++ rest) f
    (natToDec_digits s.length) hlen hf
  rw [natToDec_value] at hrc
  have hpay := convert_string_payload_spec s rest
  unfold convert_string
  rw [hin]
  cases hm : read_count f (natToDec s.length ++ 58 :: (s ++ rest)) with
  | mk t r =>
    rw [hm] at hrc
    simp only at hrc
    subst hrc
    cases hm2 : convert_string_payload s.length (s ++ rest) with
    | mk t2 r2 =>
      rw [hm2] at hpay
      simp only at hpay
      subst hpay
      simp [jsonStr, hm2]

theorem escape_byte_eq_escapeSpec (b : Nat) : escape_byte b = escapeSpec b := by
  unfold escape_byte escapeSpec isalnum ispunct
  split_ifs <;> simp_all <;> omega

/-!
Master correctness: on the encoding of a well-formed value, `convert_value`
consumes exactly that encoding and outputs exactly the specified JSON text.
-/

theorem encode_head (x : Bencode) :
    ∃ c t, encode x = c :: t ∧ (c = 105 ∨ c = 108 ∨ c = 100 ∨ (48 ≤ c ∧ c ≤ 57)) := by
  cases x with
  | int n => exact ⟨105, intToDec n ++ [101], by simp [encode], Or.inl rfl⟩
  | str s =>
    cases h : natToDec s.length with
    | nil => exact absurd h (natToDec_ne_nil _)
    | cons d t0 =>
      refine ⟨d, t0 ++ 58 :: s, by simp [encode, encodeStr, h], ?_⟩
      have : d ∈ natToDec s.length := by rw [h]; exact List.mem_cons_self d t0
      exact Or.inr (Or.inr (Or.inr (natToDec_digits s.length d this)))
  | list xs => exact ⟨108, encodeList xs ++ [101], by simp [encode], Or.inr (Or.inl rfl)⟩
  | dict ps => exact ⟨100, encodePairs ps ++ [101], by simp [encode], Or.inr (Or.inr (Or.inl rfl))⟩

theorem convert_master :
    ∀ f,
      (∀ v rest, WF v = true → bound v ≤ f →
        (convert_value f (encode v ++ rest)).2 = some (json v, rest)) ∧
      (∀ xs started rest, WFList xs = true → boundList xs ≤ f →
        (convert_list_loop f started (encodeList xs ++ 101 :: rest)).2 =
          some (jsonList xs started, rest)) ∧
      (∀ ps started rest, WFPairs ps = true → boundPairs ps ≤ f →
        (convert_dictionary_loop f started (encodePairs ps ++ 101 :: rest)).2 =
          some (jsonPairs ps started, rest)) := by
  intro f
  induction f using Nat.strong_induction_on with
  | _ f ih =>
    refine ⟨?_, ?_, ?_⟩
    · intro v rest hwf hb
      cases v with
      | int n =>
        simp only [bound] at hb
        cases f with
        | zero => omega
        | succ f' =>
          have hspec := convert_integer_spec (intToDec n) f' rest (intToDec_not_e n) (by omega)
          have hin : encode (Bencode.int n) ++ rest = 105 :: (intToDec n ++ 101 :: rest) := by
            simp [encode]
          rw [hin]
          simp only [convert_value, if_pos rfl]
          cases hm : convert_integer f' (intToDec n ++ 101 :: rest) with
          | mk t r =>
            rw [hm] at hspec
            simp only at hspec
            subst hspec
            simp [json]
      | str s =>
        simp only [bound] at hb
        simp only [WF, decide_eq_true_eq, MAX_INT_LEN] at hwf
        cases f with
        | zero => omega
        | succ f' =>
          cases h : natToDec s.length with
          | nil => exact absurd h (natToDec_ne_nil _)
          | cons d t0 =>
            have hd : 48 ≤ d ∧ d ≤ 57 := by
              apply natToDec_digits s.length
              rw [h]
              exact List.mem_cons_self d t0
            have h105 : d ≠ 105 := by omega
            have h108 : d ≠ 108 := by omega
            have h100 : d ≠ 100 := by omega
            have hin : encode (Bencode.str s) ++ rest = d :: (t0 ++ (58 :: (s ++ rest))) := by
              simp [encode, encodeStr, h]
            have hback : d :: (t0 ++ (58 :: (s ++ rest))) = encodeStr s ++ rest := by
              simp [encodeStr, h]
            have hspec := convert_string_spec s rest f'
              (by simp only [MAX_INT_LEN]; omega)
              (by omega)
            rw [hin]
            simp only [convert_value, if_neg h105, if_neg h108, if_neg h100]
            rw [hback]
            cases hm : convert_string f' (encodeStr s ++ rest) with
            | mk t r =>
              rw [hm] at hspec
              simp only at hspec
              subst hspec
              simp [json]
      | list xs =>
        simp only [bound] at hb
        simp only [WF] at hwf
        cases f with
        | zero => omega
        | succ f' =>
          have hin : encode (Bencode.list xs) ++ rest = 108 :: (encodeList xs ++ 101 :: rest) := by
            simp [encode]
          rw [hin]
          have h108 : (108 : Nat) ≠ 105 := by omega
          simp only [convert_value, if_neg h108, if_pos rfl]
          cases f' with
          | zero => omega
          | succ f'' =>
            have hloop := (ih f'' (by omega)).2.1 xs false rest hwf (by omega)
            simp only [convert_list]
            cases hm : convert_list_loop f'' false (encodeList xs ++ 101 :: rest) with
            | mk t r =>
              rw [hm] at hloop
              simp only at hloop
              subst hloop
              simp [json]
      | dict ps =>
        simp only [bound] at hb
        simp only [WF] at hwf
        cases f with
        | zero => omega
        | succ f' =>
          have hin : encode (Bencode.dict ps) ++ rest = 100 :: (encodePairs ps ++ 101 :: rest) := by
            simp [encode]
          rw [hin]
          have h105 : (100 : Nat) ≠ 105 := by omega
          have h108 : (100 : Nat) ≠ 108 := by omega
          simp only [convert_value, if_neg h105, if_neg h108, if_pos rfl]
          cases f' with
          | zero => omega
          | succ f'' =>
            have hloop := (ih f'' (by omega)).2.2 ps false rest hwf (by omega)
            simp only [convert_dictionary]
            cases hm : convert_dictionary_loop f'' false (encodePairs ps ++ 101 :: rest) with
            | mk t r =>
              rw [hm] at hloop
              simp only at hloop
              subst hloop
              simp [json]
    · intro xs started rest hwf hb
      cases xs with
      | nil =>
        simp only [boundList] at hb
        cases f with
        | zero => omega
        | succ f' => simp [encodeList, convert_list_loop, jsonList]
      | cons x xs' =>
        simp only [boundList] at hb
        simp only [WFList, Bool.and_eq_true] at hwf
        cases f with
        | zero => omega
        | succ f' =>
          obtain ⟨c, t0, hx, hc⟩ := encode_head x
          have hc101 : c ≠ 101 := by rcases hc with h | h | h | h <;> omega
          have hin : encodeList (x :: xs') ++ 101 :: rest =
              c :: (t0 ++ (encodeList xs' ++ 101 :: rest)) := by
            simp [encodeList, hx]
          have hback : c :: (t0 ++ (encodeList xs' ++ 101 :: rest)) =
              encode x ++ (encodeList xs' ++ 101 :: rest) := by
            simp [hx]
          have hval := (ih f' (by omega)).1 x (encodeList xs' ++ 101 :: rest) hwf.1 (by omega)
          have hloop := (ih f' (by omega)).2.1 xs' true rest hwf.2 (by omega)
          rw [hin]
          simp only [convert_list_loop, if_neg hc101]
          rw [hback]
          cases hm : convert_value f' (encode x ++ (encodeList xs' ++ 101 :: rest)) with
          | mk t r =>
            rw [hm] at hval
            simp only at hval
            subst hval
            cases hm2 : convert_list_loop f' true (encodeList xs' ++ 101 :: rest) with
            | mk t2 r2 =>
              rw [hm2] at hloop
              simp only at hloop
              subst hloop
              simp [jsonList, hm2]
    · intro ps started rest hwf hb
      cases ps with
      | nil =>
        simp only [boundPairs] at hb
        cases f with
        | zero => omega
        | succ f' => simp [encodePairs, convert_dictionary_loop, jsonPairs]
      | cons p ps' =>
        obtain ⟨k, v⟩ := p
        simp only [boundPairs] at hb
        simp only [WFPairs, Bool.and_eq_true] at hwf
        cases f with
        | zero => omega
        | succ f' =>
          obtain ⟨c, t0, hx, hc⟩ := encode_head (Bencode.str k)
          have hxs : encodeStr k = c :: t0 := by
            rw [← hx]
            simp [encode]
          have hc101 : c ≠ 101 := by rcases hc with h | h | h | h <;> omega
          have hin : encodePairs ((k, v) :: ps') ++ 101 :: rest =
              c :: (t0 ++ (encode v ++ (encodePairs ps' ++ 101 :: rest))) := by
            simp [encodePairs, hxs]
          have hback : c :: (t0 ++ (encode v ++ (encodePairs ps' ++ 101 :: rest))) =
              encode (Bencode.str k) ++ (encode v ++ (encodePairs ps' ++ 101 :: rest)) := by
            simp [hx]
          have hkey := (ih f' (by omega)).1 (Bencode.str k)
            (encode v ++ (encodePairs ps' ++ 101 :: rest))
            (by simp only [WF]; exact hwf.1) (by simp only [bound]; omega)
          have hval := (ih f' (by omega)).1 v (encodePairs ps' ++ 101 :: rest)
            hwf.2.1 (by omega)
          have hloop := (ih f' (by omega)).2.2 ps' true rest hwf.2.2 (by omega)
          rw [hin]
          simp only [convert_dictionary_loop, if_neg hc101]
          rw [hback]
          cases hm : convert_value f'
              (encode (Bencode.str k) ++ (encode v ++ (encodePairs ps' ++ 101 :: rest))) with
          | mk t r =>
            rw [hm] at hkey
            simp only at hkey
            subst hkey
            cases hm2 : convert_value f' (encode v ++ (encodePairs ps' ++ 101 :: rest)) with
            | mk t2 r2 =>
              rw [hm2] at hval
              simp only at hval
              subst hval
              cases hm3 : convert_dictionary_loop f' true (encodePairs ps' ++ 101 :: rest) with
              | mk t3 r3 =>
                rw [hm3] at hloop
                simp only at hloop
                subst hloop
                simp [jsonPairs, json, hm2, hm3]

/-!
Trace lemmas: the single-byte-pushback invariant holds for every run, on
every input and with any fuel, because each `unget_character` in the source
immediately follows the `get_character` that returned the same byte.
-/

theorem okAux_append (t1 t2 : List Event) (s : Option Nat)
    (h1 : okAux s t1 = true) (h2 : ∀ s', okAux s' t2 = true) :
    okAux s (t1 ++ t2) = true := by
  induction t1 generalizing s with
  | nil => exact h2 s
  | cons e t1 ih =>
    cases e with
    | got b =>
      simp only [okAux, List.cons_append] at h1 ⊢
      exact ih (some b) h1
    | ungot b =>
      simp only [okAux, List.cons_append, Bool.and_eq_true] at h1 ⊢
      exact ⟨h1.1, ih none h1.2⟩

theorem convert_integer_ok (f : Nat) : ∀ input s, okAux s (convert_integer f input).1 = true := by
  induction f with
  | zero => intro input s; simp [convert_integer, okAux]
  | succ f ih =>
    intro input s
    cases input with
    | nil => simp [convert_integer, okAux]
    | cons c rest =>
      by_cases hc : c = 101
      · simp [convert_integer, hc, okAux]
      · simp only [convert_integer, if_neg hc]
        cases hm : convert_integer f rest with
        | mk t r =>
          have := ih rest
          rw [hm] at this
          cases r with
          | none => simpa [okAux] using this (some c)
          | some p =>
            obtain ⟨out, rem⟩ := p
            simpa [okAux] using this (some c)

theorem read_count_loop_ok (f : Nat) :
    ∀ buf input s, okAux s (read_count_loop f buf input).1 = true := by
  induction f with
  | zero => intro buf input s; simp [read_count_loop, okAux]
  | succ f ih =>
    intro buf input s
    cases input with
    | nil => simp [read_count_loop, okAux]
    | cons c rest =>
      by_cases hc : c = 58
      · simp [read_count_loop, hc, okAux]
      · by_cases hful : MAX_INT_LEN ≤ buf.length + 1
        · simp [read_count_loop, if_neg hc, if_pos hful, okAux]
        · simp only [read_count_loop, if_neg hc, if_neg hful]
          cases hm : read_count_loop f (buf ++ [c]) rest with
          | mk t r =>
            have := ih (buf ++ [c]) rest
            rw [hm] at this
            simpa [okAux] using this (some c)

theorem read_count_ok (f : Nat) (input : List Nat) (s : Option Nat) :
    okAux s (read_count f input).1 = true := by
  unfold read_count
  cases hm : read_count_loop f [] input with
  | mk t r =>
    have := read_count_loop_ok f [] input s
    rw [hm] at this
    cases r with
    | none => exact this
    | some p =>
      obtain ⟨buf, rest⟩ := p
      exact this

theorem convert_string_payload_ok (n : Nat) :
    ∀ input s, okAux s (convert_string_payload n input).1 = true := by
  induction n with
  | zero => intro input s; simp [convert_string_payload, okAux]
  | succ n ih =>
    intro input s
    cases input with
    | nil => simp [convert_string_payload, okAux]
    | cons c rest =>
      simp only [convert_string_payload]
      cases hm : convert_string_payload n rest with
      | mk t r =>
        have := ih rest
        rw [hm] at this
        cases r with
        | none => simpa [okAux] using this (some c)
        | some p =>
          obtain ⟨out, rem⟩ := p
          simpa [okAux] using this (some c)

theorem convert_string_ok (f : Nat) (input : List Nat) (s : Option Nat) :
    okAux s (convert_string f input).1 = true := by
  unfold convert_string
  cases hm : read_count f input with
  | mk t r =>
    have ht : ∀ s', okAux s' t = true := by
      intro s'
      have := read_count_ok f input s'
      rw [hm] at this
      exact this
    cases r with
    | none => exact ht s
    | some p =>
      obtain ⟨count, rest⟩ := p
      cases hm2 : convert_string_payload count rest with
      | mk t2 r2 =>
        have ht2 : ∀ s', okAux s' t2 = true := by
          intro s'
          have := convert_string_payload_ok count rest s'
          rw [hm2] at this
          exact this
        have happ := okAux_append t t2 s (ht s) ht2
        cases r2 with
        | none => simpa [hm2] using happ
        | some p2 =>
          obtain ⟨out, rem⟩ := p2
          simpa [hm2] using happ

theorem ok_all :
    ∀ f,
      (∀ input s, okAux s (convert_value f input).1 = true) ∧
      (∀ input s, okAux s (convert_list f input).1 = true) ∧
      (∀ started input s, okAux s (convert_list_loop f started input).1 = true) ∧
      (∀ input s, okAux s (convert_dictionary f input).1 = true) ∧
      (∀ started input s, okAux s (convert_dictionary_loop f started input).1 = true) := by
  intro f
  induction f with
  | zero =>
    refine ⟨fun input s => ?_, fun input s => ?_, fun st input s => ?_,
      fun input s => ?_, fun st input s => ?_⟩
    · cases input <;> rfl
    · rfl
    · cases input <;> rfl
    · rfl
    · cases input <;> rfl
  | succ f ih =>
    obtain ⟨ihv, ihl, ihll, ihd, ihdl⟩ := ih
    have hvP : ∀ input, ∀ s, okAux s (convert_value f input).1 = true := ihv
    refine ⟨?_, ?_, ?_, ?_, ?_⟩
    · intro input s
      cases input with
      | nil => simp [convert_value, okAux]
      | cons c rest =>
        by_cases h105 : c = 105
        · simp only [convert_value, if_pos h105]
          cases hm : convert_integer f rest with
          | mk t r =>
            have := convert_integer_ok f rest
            rw [hm] at this
            simpa [okAux] using this (some c)
        · by_cases h108 : c = 108
          · simp only [convert_value, if_neg h105, if_pos h108]
            cases hm : convert_list f rest with
            | mk t r =>
              have := ihl rest
              rw [hm] at this
              simpa [okAux] using this (some c)
          · by_cases h100 : c = 100
            · simp only [convert_value, if_neg h105, if_neg h108, if_pos h100]
              cases hm : convert_dictionary f rest with
              | mk t r =>
                have := ihd rest
                rw [hm] at this
                simpa [okAux] using this (some c)
            · simp only [convert_value, if_neg h105, if_neg h108, if_neg h100]
              cases hm : convert_string f (c :: rest) with
              | mk t r =>
                have := convert_string_ok f (c :: rest)
                rw [hm] at this
                simpa [okAux] using this none
    · intro input s
      simp only [convert_list]
      cases hm : convert_list_loop f false input with
      | mk t r =>
        have := ihll false input
        rw [hm] at this
        cases r with
        | none => exact this s
        | some p =>
          obtain ⟨out, rem⟩ := p
          exact this s
    · intro started input s
      cases input with
      | nil => simp [convert_list_loop, okAux]
      | cons c rest =>
        by_cases hc : c = 101
        · simp [convert_list_loop, hc, okAux]
        · simp only [convert_list_loop, if_neg hc]
          cases hm : convert_value f (c :: rest) with
          | mk t r =>
            have htv : ∀ s', okAux s' t = true := by
              intro s'
              have := ihv (c :: rest) s'
              rw [hm] at this
              exact this
            cases r with
            | none => simpa [okAux] using htv none
            | some p =>
              obtain ⟨out1, rem1⟩ := p
              cases hm2 : convert_list_loop f true rem1 with
              | mk t2 r2 =>
                have ht2 : ∀ s', okAux s' t2 = true := by
                  intro s'
                  have := ihll true rem1 s'
                  rw [hm2] at this
                  exact this
                cases r2 with
                | none =>
                  simpa [okAux, hm2] using okAux_append t t2 none (htv none) ht2
                | some p2 =>
                  obtain ⟨out2, rem2⟩ := p2
                  simpa [okAux, hm2] using okAux_append t t2 none (htv none) ht2
    · intro input s
      simp only [convert_dictionary]
      cases hm : convert_dictionary_loop f false input with
      | mk t r =>
        have := ihdl false input
        rw [hm] at this
        cases r with
        | none => exact this s
        | some p =>
          obtain ⟨out, rem⟩ := p
          exact this s
    · intro started input s
      cases input with
      | nil => simp [convert_dictionary_loop, okAux]
      | cons c rest =>
        by_cases hc : c = 101
        · simp [convert_dictionary_loop, hc, okAux]
        · simp only [convert_dictionary_loop, if_neg hc]
          cases hm : convert_value f (c :: rest) with
          | mk t r =>
            have htv : ∀ s', okAux s' t = true := by
              intro s'
              have := ihv (c :: rest) s'
              rw [hm] at this
              exact this
            cases r with
            | none => simpa [okAux] using htv none
            | some p =>
              obtain ⟨outk, rem1⟩ := p
              cases hm2 : convert_value f rem1 with
              | mk t2 r2 =>
                have ht2 : ∀ s', okAux s' t2 = true := by
                  intro s'
                  have := ihv rem1 s'
                  rw [hm2] at this
                  exact this
                cases r2 with
                | none =>
                  simpa [okAux, hm2] using okAux_append t t2 none (htv none) ht2
                | some p2 =>
                  obtain ⟨outv, rem2⟩ := p2
                  cases hm3 : convert_dictionary_loop f true rem2 with
                  | mk t3 r3 =>
                    have ht3 : ∀ s', okAux s' t3 = true := by
                      intro s'
                      have := ihdl true rem2 s'
                      rw [hm3] at this
                      exact this
                    have happ : okAux none (t ++ t2 ++ t3) = true :=
                      okAux_append (t ++ t2) t3 none
                        (okAux_append t t2 none (htv none) ht2) ht3
                    cases r3 with
                    | none => simpa [okAux, hm2, hm3, List.append_assoc] using happ
                    | some p3 =>
                      obtain ⟨out3, rem3⟩ := p3
                      simpa [okAux, hm2, hm3, List.append_assoc] using happ

/-!
Round-trip lemmas: the JSON reader recovers the value from the JSON text
the transcoder produces, for values whose payloads are printable ASCII.
-/

theorem json_head (v : Bencode) :
    ∃ c t, json v = c :: t ∧
      (c = 45 ∨ (48 ≤ c ∧ c ≤ 57) ∨ c = 34 ∨ c = 91 ∨ c = 123) := by
  cases v with
  | int n =>
    by_cases hneg : n < 0
    · exact ⟨45, natToDec (-n).toNat, by simp [json, intToDec, hneg], Or.inl rfl⟩
    · cases h : natToDec n.toNat with
      | nil => exact absurd h (natToDec_ne_nil _)
      | cons d t0 =>
        refine ⟨d, t0, by simp [json, intToDec, hneg, h], ?_⟩
        have : d ∈ natToDec n.toNat := by rw [h]; exact List.mem_cons_self d t0
        exact Or.inr (Or.inl (natToDec_digits _ d this))
  | str s =>
    exact ⟨34, (s.map escape_byte).flatten ++ [34], by simp [json, jsonStr],
      Or.inr (Or.inr (Or.inl rfl))⟩
  | list xs =>
    exact ⟨91, jsonList xs false ++ [93], by simp [json],
      Or.inr (Or.inr (Or.inr (Or.inl rfl)))⟩
  | dict ps =>
    exact ⟨123, jsonPairs ps false ++ [125], by simp [json],
      Or.inr (Or.inr (Or.inr (Or.inr rfl)))⟩

theorem jsonList_tail_head (xs : List Bencode) (rest : List Nat) :
    ∀ d, (jsonList xs true ++ 93 :: rest).head? = some d → ¬(48 ≤ d ∧ d ≤ 57) := by
  intro d h
  cases xs with
  | nil =>
    simp only [jsonList, List.nil_append, List.head?_cons, Option.some.injEq] at h
    omega
  | cons x xs =>
    simp only [jsonList, if_true, List.cons_append, List.head?_cons,
      Option.some.injEq] at h
    omega

theorem jsonPairs_tail_head (ps : List (List Nat × Bencode)) (rest : List Nat) :
    ∀ d, (jsonPairs ps true ++ 125 :: rest).head? = some d → ¬(48 ≤ d ∧ d ≤ 57) := by
  intro d h
  cases ps with
  | nil =>
    simp only [jsonPairs, List.nil_append, List.head?_cons, Option.some.injEq] at h
    omega
  | cons p ps =>
    obtain ⟨k, v⟩ := p
    simp only [jsonPairs, if_true, List.cons_append, List.head?_cons,
      Option.some.injEq] at h
    omega

theorem json_read_str_spec :
    ∀ s rest, (∀ b ∈ s, 32 ≤ b ∧ b ≤ 126) →
      json_read_str ((s.map escape_byte).flatten ++ (34 :: rest)) = some (s, rest) := by
  intro s
  induction s with
  | nil => intro rest _; simp [json_read_str.eq_def]
  | cons b s ih =>
    intro rest hpr
    have hb := hpr b (List.mem_cons_self b s)
    have hih := ih rest (fun x hx => hpr x (List.mem_cons_of_mem b hx))
    by_cases hq : b = 34 ∨ b = 92
    · have hesc : escape_byte b = [92, b] := by
        unfold escape_byte
        rcases hq with h | h <;> simp [h]
      simp only [List.map_cons, List.flatten_cons, hesc, List.cons_append,
        List.append_assoc, List.nil_append]
      simp [json_read_str, hih]
    · push_neg at hq
      have hesc : escape_byte b = [b] := by
        unfold escape_byte
        have hc1 : ¬(b = 34 || b = 92) = true := by
          simp only [Bool.or_eq_true, decide_eq_true_eq]
          omega
        have hc2 : (isalnum b || ispunct b || b = 32) = true := by
          simp only [isalnum, ispunct, Bool.or_eq_true, Bool.and_eq_true, decide_eq_true_eq]
          omega
        simp [hc1, hc2]
      simp only [List.map_cons, List.flatten_cons, hesc, List.cons_append,
        List.append_assoc, List.nil_append]
      rw [json_read_str.eq_def]
      simp [hq.1, hq.2, hih]

theorem json_read_int_spec (n : Int) (rest : List Nat)
    (hrest : ∀ d, rest.head? = some d → ¬(48 ≤ d ∧ d ≤ 57)) :
    json_read_int (intToDec n ++ rest) = some (n, rest) := by
  by_cases hneg : n < 0
  · have h0 : ((-n).toNat : Int) = -n := Int.toNat_of_nonneg (by omega)
    cases h : natToDec (-n).toNat with
    | nil => exact absurd h (natToDec_ne_nil _)
    | cons d t0 =>
      have htake : takeDigits (natToDec (-n).toNat ++ rest) = (natToDec (-n).toNat, rest) :=
        takeDigits_digits_append _ rest (natToDec_digits _) hrest
      rw [h] at htake
      simp only [List.cons_append] at htake
      have hval : decValue (d :: t0) = (-n).toNat := by rw [← h]; exact natToDec_value _
      simp only [intToDec, if_pos hneg, h, List.cons_append]
      simp [json_read_int, htake, hval, h0]
  · have h0 : (n.toNat : Int) = n := Int.toNat_of_nonneg (by omega)
    cases h : natToDec n.toNat with
    | nil => exact absurd h (natToDec_ne_nil _)
    | cons d t0 =>
      have htake : takeDigits (natToDec n.toNat ++ rest) = (natToDec n.toNat, rest) :=
        takeDigits_digits_append _ rest (natToDec_digits _) hrest
      rw [h] at htake
      simp only [List.cons_append] at htake
      have hval : decValue (d :: t0) = n.toNat := by rw [← h]; exact natToDec_value _
      have hd : 48 ≤ d ∧ d ≤ 57 := by
        apply natToDec_digits n.toNat
        rw [h]
        exact List.mem_cons_self d t0
      have h45 : d ≠ 45 := by omega
      simp only [intToDec, if_neg hneg, h, List.cons_append]
      simp [json_read_int, h45, htake, hval, h0]

theorem intToDec_ne_nil (n : Int) : intToDec n ≠ [] := by
  unfold intToDec
  by_cases hneg : n < 0
  · simp [hneg]
  · simp [hneg, natToDec_ne_nil]

theorem json_read_master :
    ∀ f,
      (∀ v rest, printableV v = true → jbound v ≤ f →
        (∀ d, rest.head? = some d → ¬(48 ≤ d ∧ d ≤ 57)) →
        json_read f (json v ++ rest) = some (v, rest)) ∧
      (∀ xs started rest, printableL xs = true → jboundList xs ≤ f →
        json_read_array f (jsonList xs started ++ 93 :: rest) started = some (xs, rest)) ∧
      (∀ ps started rest, printableP ps = true → jboundPairs ps ≤ f →
        json_read_object f (jsonPairs ps started ++ 125 :: rest) started = some (ps, rest)) := by
  intro f
  induction f using Nat.strong_induction_on with
  | _ f ih =>
    refine ⟨?_, ?_, ?_⟩
    · intro v rest hpr hb hrest
      cases v with
      | int n =>
        simp only [jbound] at hb
        cases f with
        | zero => omega
        | succ f' =>
          cases hILD : intToDec n with
          | nil => exact absurd hILD (intToDec_ne_nil n)
          | cons c t0 =>
            have hcm : c = 45 ∨ (48 ≤ c ∧ c ≤ 57) := by
              apply intToDec_mem n
              rw [hILD]
              exact List.mem_cons_self c t0
            have h91 : c ≠ 91 := by omega
            have h123 : c ≠ 123 := by omega
            have h34 : c ≠ 34 := by omega
            have hspec := json_read_int_spec n rest hrest
            have hin : json (Bencode.int n) ++ rest = c :: (t0 ++ rest) := by
              simp [json, hILD]
            have hback : c :: (t0 ++ rest) = intToDec n ++ rest := by
              simp [hILD]
            rw [hin]
            simp only [json_read, if_neg h91, if_neg h123, if_neg h34]
            rw [hback, hspec]
      | str s =>
        simp only [jbound] at hb
        simp only [printableV, List.all_eq_true, decide_eq_true_eq] at hpr
        cases f with
        | zero => omega
        | succ f' =>
          have hin : json (Bencode.str s) ++ rest =
              34 :: ((s.map escape_byte).flatten ++ (34 :: rest)) := by
            simp [json, jsonStr]
          rw [hin]
          have h91 : (34 : Nat) ≠ 91 := by omega
          have h123 : (34 : Nat) ≠ 123 := by omega
          simp only [json_read, if_neg h91, if_neg h123, if_pos rfl]
          rw [json_read_str_spec s rest hpr]
          simp
      | list xs =>
        simp only [jbound] at hb
        simp only [printableV] at hpr
        cases f with
        | zero => omega
        | succ f' =>
          have hin : json (Bencode.list xs) ++ rest =
              91 :: (jsonList xs false ++ (93 :: rest)) := by
            simp [json]
          rw [hin]
          simp only [json_read, if_pos rfl]
          rw [(ih f' (by omega)).2.1 xs false rest hpr (by omega)]
          simp
      | dict ps =>
        simp only [jbound] at hb
        simp only [printableV] at hpr
        cases f with
        | zero => omega
        | succ f' =>
          have hin : json (Bencode.dict ps) ++ rest =
              123 :: (jsonPairs ps false ++ (125 :: rest)) := by
            simp [json]
          rw [hin]
          have h91 : (123 : Nat) ≠ 91 := by omega
          simp only [json_read, if_neg h91, if_pos rfl]
          rw [(ih f' (by omega)).2.2 ps false rest hpr (by omega)]
          simp
    · intro xs started rest hpr hb
      cases xs with
      | nil =>
        simp only [jboundList] at hb
        cases f with
        | zero => omega
        | succ f' => simp [jsonList, json_read_array]
      | cons x xs' =>
        simp only [jboundList] at hb
        simp only [printableL, Bool.and_eq_true] at hpr
        cases f with
        | zero => omega
        | succ f' =>
          have hvrest := jsonList_tail_head xs' rest
          have hval := (ih f' (by omega)).1 x (jsonList xs' true ++ 93 :: rest)
            hpr.1 (by omega) hvrest
          have hloop := (ih f' (by omega)).2.1 xs' true rest hpr.2 (by omega)
          obtain ⟨c, t0, hx, hc⟩ := json_head x
          have hc93 : c ≠ 93 := by omega
          cases started with
          | false =>
            have hin : jsonList (x :: xs') false ++ 93 :: rest =
                c :: (t0 ++ (jsonList xs' true ++ 93 :: rest)) := by
              simp [jsonList, hx]
            have hback : c :: (t0 ++ (jsonList xs' true ++ 93 :: rest)) =
                json x ++ (jsonList xs' true ++ 93 :: rest) := by
              simp [hx]
            rw [hin]
            simp only [json_read_array, if_neg hc93]
            simp only [Bool.false_eq_true, false_and, if_false, if_neg]
            rw [hback]
            simp [hval, hloop]
          | true =>
            have hin : jsonList (x :: xs') true ++ 93 :: rest =
                44 :: (json x ++ (jsonList xs' true ++ 93 :: rest)) := by
              simp [jsonList]
            have h4493 : (44 : Nat) ≠ 93 := by omega
            rw [hin]
            simp only [json_read_array, if_neg h4493]
            simp only [ne_eq, not_true_eq_false, and_false, if_false, if_true]
            simp [hval, hloop]
    · intro ps started rest hpr hb
      cases ps with
      | nil =>
        simp only [jboundPairs] at hb
        cases f with
        | zero => omega
        | succ f' => simp [jsonPairs, json_read_object]
      | cons p ps' =>
        obtain ⟨k, v⟩ := p
        simp only [jboundPairs] at hb
        simp only [printableP, Bool.and_eq_true, List.all_eq_true, decide_eq_true_eq] at hpr
        cases f with
        | zero => omega
        | succ f' =>
          have hvrest := jsonPairs_tail_head ps' rest
          have hval := (ih f' (by omega)).1 v (jsonPairs ps' true ++ 125 :: rest)
            hpr.2.1 (by omega) hvrest
          have hloop := (ih f' (by omega)).2.2 ps' true rest hpr.2.2 (by omega)
          have hkey := json_read_str_spec k
            (58 :: (json v ++ (jsonPairs ps' true ++ 125 :: rest))) hpr.1
          cases started with
          | false =>
            have hin : jsonPairs ((k, v) :: ps') false ++ 125 :: rest =
                34 :: ((k.map escape_byte).flatten ++
                  (34 :: (58 :: (json v ++ (jsonPairs ps' true ++ 125 :: rest))))) := by
              simp [jsonPairs, jsonStr]
            have h34125 : (34 : Nat) ≠ 125 := by omega
            rw [hin]
            simp only [json_read_object, if_neg h34125]
            simp only [Bool.false_eq_true, false_and, if_false, if_neg]
            rw [hkey]
            simp [hval, hloop]
          | true =>
            have hin : jsonPairs ((k, v) :: ps') true ++ 125 :: rest =
                44 :: (34 :: ((k.map escape_byte).flatten ++
                  (34 :: (58 :: (json v ++ (jsonPairs ps' true ++ 125 :: rest)))))) := by
              simp [jsonPairs, jsonStr]
            have h44125 : (44 : Nat) ≠ 125 := by omega
            rw [hin]
            simp only [json_read_object, if_neg h44125]
            simp only [ne_eq, not_true_eq_false, and_false, if_false, if_true]
            rw [hkey]
            simp [hval, hloop]

/-!
Remaining helper lemmas for the claims.
-/

theorem convert_integer_eof (f : Nat) : (convert_integer f []).2 = none := by
  cases f with
  | zero => rfl
  | succ f => rfl

theorem convert_value_i_eof (f : Nat) : (convert_value f [105]).2 = none := by
  cases f with
  | zero => rfl
  | succ f' =>
    have h := convert_integer_eof f'
    cases hm : convert_integer f' [] with
    | mk t r =>
      rw [hm] at h
      simp only at h
      subst h
      simp [convert_value, hm]

theorem read_count_writes_loop_spec :
    ∀ ds len rest f, (∀ d ∈ ds, d ≠ 58) → len + ds.length + 1 ≤ MAX_INT_LEN →
      ds.length + 1 ≤ f →
      read_count_writes_loop f len (ds ++ 58 :: rest) =
        some (List.range' len ds.length, len + ds.length) := by
  intro ds
  induction ds with
  | nil =>
    intro len rest f _ _ hf
    cases f with
    | zero => simp at hf
    | succ f => simp [read_count_writes_loop, List.range']
  | cons d ds ih =>
    intro len rest f hne hcap hf
    cases f with
    | zero => simp at hf
    | succ f =>
      have hd : d ≠ 58 := hne d (List.mem_cons_self d ds)
      have hcap' : ¬ MAX_INT_LEN ≤ len + 1 := by
        simp only [List.length_cons] at hcap
        omega
      have hih := ih (len + 1) rest f (fun x hx => hne x (List.mem_cons_of_mem d hx))
        (by simp only [List.length_cons] at hcap ⊢; omega)
        (by simp only [List.length_cons] at hf; omega)
      simp only [List.cons_append, read_count_writes_loop, if_neg hd, if_neg hcap',
        List.append_eq, hih]
      simp only [List.length_cons]
      rw [show len + 1 - 1 = len from rfl]
      rw [← List.range'_succ len ds.length 1]
      simp only [Option.some.injEq, Prod.mk.injEq]
      exact ⟨trivial, by omega⟩

/-!
Claim theorems.
-/

/-- C1, counterexample to the claim as stated.  On the concrete input of 50
digit bytes `1` followed by the `:` delimiter, `read_count` returns the
decimal value of the 50 accumulated digits but the `:` (byte 58) is still at
the head of the remaining input: the loop breaks as soon as the buffer holds
`MAX_INT_LEN` bytes and does not keep reading and discarding until the
delimiter is consumed, contrary to the claim. -/
theorem claim_C1_counterexample :
    (read_count 60 (List.replicate 50 49 ++ [58])).2 =
      some (decValue (List.replicate 50 49), [58]) := by
  exact read_count_spec_full (List.replicate 50 49) [58] 60 (by decide) (by decide) (by decide)

/-- C1 (amended): when the digit sequence reaches `MAX_INT_LEN = 50` bytes
before a `:` is seen, `read_count` stops reading at once — the `:` and any
later prefix bytes are left unconsumed — and returns the decimal value of
the 50 accumulated bytes; for every prefix of at most 49 digits followed by
`:`, the delimiter is consumed and the returned count is the decimal value
of those digits. -/
theorem claim_C1_amended :
    (∀ ds rest f, (∀ d ∈ ds, 48 ≤ d ∧ d ≤ 57) → ds.length = MAX_INT_LEN →
      MAX_INT_LEN ≤ f → (read_count f (ds ++ rest)).2 = some (decValue ds, rest)) ∧
    (∀ ds rest f, (∀ d ∈ ds, 48 ≤ d ∧ d ≤ 57) → ds.length + 1 ≤ MAX_INT_LEN →
      ds.length + 1 ≤ f → (read_count f (ds ++ 58 :: rest)).2 = some (decValue ds, rest)) :=
  ⟨fun ds rest f hds hlen hf => read_count_spec_full ds rest f hds hlen hf,
   fun ds rest f hds hlen hf => read_count_spec ds rest f hds hlen hf⟩

/-- Witness for C1 (amended): the truncating branch leaves `58, 99`
unconsumed after 50 digits, and the prefix `12:` parses to count 12 with the
delimiter consumed. -/
theorem claim_C1_witness :
    (read_count 60 (List.replicate 50 49 ++ [58, 99])).2 =
      some (decValue (List.replicate 50 49), [58, 99]) ∧
    (read_count 10 [49, 50, 58, 99]).2 = some (12, [99]) := by
  constructor
  · exact claim_C1_amended.1 (List.replicate 50 49) [58, 99] 60
      (by decide) (by decide) (by decide)
  · exact claim_C1_amended.2 [49, 50] [99] 10 (by decide) (by decide) (by decide)

/-- C2: for a length prefix of digits `ds` denoting `n`, `convert_string`
consumes the prefix, the `:`, and exactly `n` payload bytes, and outputs the
payload wrapped in double quotes with each byte escaped exactly as the claim
words it (`escapeSpec`): backslash-escape for `"` and `\`, verbatim for
ASCII alphanumerics, punctuation and space, and `\u00XX` with two lowercase
hex digits otherwise. -/
theorem claim_C2 : ∀ n payload ds rest f,
    payload.length = n → (∀ b ∈ payload, b < 256) →
    (∀ d ∈ ds, 48 ≤ d ∧ d ≤ 57) → decValue ds = n → ds.length + 1 ≤ MAX_INT_LEN →
    ds.length + 1 ≤ f →
    (convert_string f (ds ++ 58 :: (payload ++ rest))).2 =
      some (34 :: ((payload.map escapeSpec).flatten ++ [34]), rest) := by
  intro n payload ds rest f hplen _ hds hval hdslen hf
  have hesc : escape_byte = escapeSpec := funext escape_byte_eq_escapeSpec
  have hrc := read_count_spec ds (payload ++ rest) f hds hdslen hf
  rw [hval, ← hplen] at hrc
  have hpay := convert_string_payload_spec payload rest
  unfold convert_string
  cases hm : read_count f (ds ++ 58 :: (payload ++ rest)) with
  | mk t r =>
    rw [hm] at hrc
    simp only at hrc
    subst hrc
    cases hm2 : convert_string_payload payload.length (payload ++ rest) with
    | mk t2 r2 =>
      rw [hm2] at hpay
      simp only at hpay
      subst hpay
      simp [hm2, hesc]

/-- Witness for C2: the spec's concrete example — a payload containing byte
0x01 is escaped as the six bytes `\u0001` (92, 117, 48, 48, 48, 49). -/
theorem claim_C2_witness :
    (convert_string 3 [49, 58, 1]).2 =
      some ([34, 92, 117, 48, 48, 48, 49, 34], []) := by
  have h := claim_C2 1 [1] [49] [] 3 (by decide) (by decide) (by decide)
    (by decide) (by decide) (by decide)
  simpa using h

/-- C3: `convert_list`, run after the `l` tag on the encodings of zero or
more well-formed values followed by `e`, writes `[`, the JSON conversions of
the elements in order with a `,` before every element except the first,
consumes the terminating `e`, and writes `]`; the remaining input starts
right after that `e`. -/
theorem claim_C3 : ∀ xs f rest, WFList xs = true → boundList xs + 1 ≤ f →
    (convert_list f (encodeList xs ++ 101 :: rest)).2 =
      some (91 :: (jsonList xs false ++ [93]), rest) := by
  intro xs f rest hwf hf
  cases f with
  | zero => omega
  | succ f' =>
    have h := (convert_master f').2.1 xs false rest hwf (by omega)
    simp only [convert_list]
    cases hm : convert_list_loop f' false (encodeList xs ++ 101 :: rest) with
    | mk t r =>
      rw [hm] at h
      simp only at h
      subst h
      simp

/-- Witness for C3: the empty list body `e` gives exactly `[]`, and
`4:spam4:eggse` gives exactly `["spam","eggs"]`. -/
theorem claim_C3_witness :
    (convert_list 2 [101]).2 = some ([91, 93], []) ∧
    (convert_list 20 [52, 58, 115, 112, 97, 109, 52, 58, 101, 103, 103, 115, 101]).2 =
      some ([91, 34, 115, 112, 97, 109, 34, 44, 34, 101, 103, 103, 115, 34, 93], []) := by
  constructor
  · exact claim_C3 [] 2 [] (by decide) (by decide)
  · exact claim_C3 [Bencode.str [115, 112, 97, 109], Bencode.str [101, 103, 103, 115]]
      20 [] (by decide) (by decide)

/-- C4: `convert_dictionary`, run after the `d` tag on the encodings of zero
or more well-formed key/value pairs followed by `e`, writes `{`, then for
each pair the conversion of the key, a `:`, and the conversion of the value,
with `,` between pairs, preserving the pair count and the key order of the
input, consumes the terminating `e`, and writes `}`. -/
theorem claim_C4 : ∀ ps f rest, WFPairs ps = true → boundPairs ps + 1 ≤ f →
    (convert_dictionary f (encodePairs ps ++ 101 :: rest)).2 =
      some (123 :: (jsonPairs ps false ++ [125]), rest) := by
  intro ps f rest hwf hf
  cases f with
  | zero => omega
  | succ f' =>
    have h := (convert_master f').2.2 ps false rest hwf (by omega)
    simp only [convert_dictionary]
    cases hm : convert_dictionary_loop f' false (encodePairs ps ++ 101 :: rest) with
    | mk t r =>
      rw [hm] at h
      simp only at h
      subst h
      simp

/-- Witness for C4: the empty dictionary body `e` gives exactly `{}`, and
the spec's example `3:cow3:moo4:spam4:eggse` gives exactly
`{"cow":"moo","spam":"eggs"}`, keys in input order. -/
theorem claim_C4_witness :
    (convert_dictionary 2 [101]).2 = some ([123, 125], []) ∧
    (convert_dictionary 30
        [51, 58, 99, 111, 119, 51, 58, 109, 111, 111, 52, 58, 115, 112, 97, 109,
         52, 58, 101, 103, 103, 115, 101]).2 =
      some ([123, 34, 99, 111, 119, 34, 58, 34, 109, 111, 111, 34, 44,
             34, 115, 112, 97, 109, 34, 58, 34, 101, 103, 103, 115, 34, 125], []) := by
  constructor
  · exact claim_C4 [] 2 [] (by decide) (by decide)
  · exact claim_C4
      [([99, 111, 119], Bencode.str [109, 111, 111]),
       ([115, 112, 97, 109], Bencode.str [101, 103, 103, 115])]
      30 [] (by decide) (by decide)

/-- C5, counterexample to the claim as stated.  On the input consisting of
the single byte `i`, the C program never terminates: `convert_integer` reads
past end of stream forever (`(char)EOF` is never `e`), so `main` never
returns 0.  In the model no fuel makes the run complete. -/
theorem claim_C5_counterexample :
    ¬ ∃ f r, (convert_value f [105]).2 = some r := by
  rintro ⟨f, r, h⟩
  rw [convert_value_i_eof f] at h
  exact Option.noConfusion h

/-- C5 (amended): for every input that begins with one well-formed bencode
value, `main` consumes exactly that value through its single `convert_value`
call and returns exit status 0.  Success is not guaranteed regardless of
well-formedness: on the lone byte `i` the call never completes (the
accompanying counterexample), so the claim's universal form holds only on
well-formed inputs. -/
theorem claim_C5_amended : ∀ v f rest, WF v = true → bound v ≤ f →
    c_main f (encode v ++ rest) = some 0 ∧
      (convert_value f (encode v ++ rest)).2 = some (json v, rest) := by
  intro v f rest hwf hb
  have h := (convert_master f).1 v rest hwf hb
  refine ⟨?_, h⟩
  unfold c_main
  cases hm : convert_value f (encode v ++ rest) with
  | mk t r =>
    rw [hm] at h
    simp only at h
    subst h
    rfl

/-- Witness for C5 (amended): on `i42e` the program consumes the whole
value, outputs `42`, and exits with status 0. -/
theorem claim_C5_witness :
    c_main 5 [105, 52, 50, 101] = some 0 ∧
      (convert_value 5 [105, 52, 50, 101]).2 = some ([52, 50], []) := by
  have h := claim_C5_amended (Bencode.int 42) 5 [] (by decide) (by decide)
  simpa using h

/-- C6: `convert_value` reads exactly one byte and dispatches on it — `i`
(105) to the integer converter, `l` (108) to the list converter, `d` (100)
to the dictionary converter, and any other byte is pushed back (the string
converter sees it again at the head of its input); and on the encoding of a
well-formed value it consumes exactly that one value and outputs exactly its
JSON equivalent, returning only after the terminating delimiter is
consumed. -/
theorem claim_C6 :
    (∀ f rest, (convert_value (f+1) (105 :: rest)).2 = (convert_integer f rest).2) ∧
    (∀ f rest, (convert_value (f+1) (108 :: rest)).2 = (convert_list f rest).2) ∧
    (∀ f rest, (convert_value (f+1) (100 :: rest)).2 = (convert_dictionary f rest).2) ∧
    (∀ f c rest, c ≠ 105 → c ≠ 108 → c ≠ 100 →
      (convert_value (f+1) (c :: rest)).2 = (convert_string f (c :: rest)).2) ∧
    (∀ v f rest, WF v = true → bound v ≤ f →
      (convert_value f (encode v ++ rest)).2 = some (json v, rest)) := by
  refine ⟨?_, ?_, ?_, ?_, fun v f rest hwf hb => (convert_master f).1 v rest hwf hb⟩
  · intro f rest
    cases hm : convert_integer f rest with
    | mk t r => simp [convert_value, hm]
  · intro f rest
    cases hm : convert_list f rest with
    | mk t r => simp [convert_value, hm]
  · intro f rest
    cases hm : convert_dictionary f rest with
    | mk t r => simp [convert_value, hm]
  · intro f c rest h105 h108 h100
    cases hm : convert_string f (c :: rest) with
    | mk t r => simp [convert_value, h105, h108, h100, hm]

/-- Witness for C6: the pushback branch on the digit `52` (start of
`4:spam`) agrees with running `convert_string` on the same input, and the
whole value `4:spam` converts to `"spam"`. -/
theorem claim_C6_witness :
    (convert_value 3 [52, 58, 115, 112, 97, 109]).2 =
      (convert_string 2 [52, 58, 115, 112, 97, 109]).2 ∧
    (convert_value 5 [52, 58, 115, 112, 97, 109]).2 =
      some ([34, 115, 112, 97, 109, 34], []) := by
  constructor
  · exact claim_C6.2.2.2.1 2 52 [58, 115, 112, 97, 109]
      (by decide) (by decide) (by decide)
  · have h := claim_C6.2.2.2.2 (Bencode.str [115, 112, 97, 109]) 5 []
      (by decide) (by decide)
    simpa using h

/-- C7: `convert_integer`, called after the `i` tag, copies every following
byte verbatim to the output until the terminator `e` (101), which is
consumed but not written; the remaining input starts right after the `e`. -/
theorem claim_C7 : ∀ ds rest f, 101 ∉ ds → ds.length + 1 ≤ f →
    (convert_integer f (ds ++ 101 :: rest)).2 = some (ds, rest) :=
  fun ds rest f h hf => convert_integer_spec ds f rest h hf

/-- Witness for C7: after the `i` of `i42e`, the bytes `42` are copied and
the `e` is consumed without being written. -/
theorem claim_C7_witness :
    (convert_integer 3 [52, 50, 101]).2 = some ([52, 50], []) :=
  claim_C7 [52, 50] [] 3 (by decide) (by decide)

/-- C8: round-trip — for every well-formed value whose string payloads are
printable ASCII, the transcoder's JSON output decodes (with the reference
JSON reader) to a value whose reference bencode encoding is exactly the
original input byte sequence. -/
theorem claim_C8 : ∀ v f g, WF v = true → printableV v = true →
    bound v ≤ f → jbound v ≤ g →
    ∃ out w, (convert_value f (encode v)).2 = some (out, []) ∧
      json_read g out = some (w, []) ∧ encode w = encode v := by
  intro v f g hwf hpr hbf hbg
  have h1 := (convert_master f).1 v [] hwf hbf
  rw [List.append_nil] at h1
  have h2 := (json_read_master g).1 v [] hpr hbg (by intro d hd; simp at hd)
  rw [List.append_nil] at h2
  exact ⟨json v, v, h1, h2, rfl⟩

/-- Witness for C8: the round trip on `l4:spame`. -/
theorem claim_C8_witness :
    ∃ out w,
      (convert_value 20 (encode (Bencode.list [Bencode.str [115, 112, 97, 109]]))).2 =
        some (out, []) ∧
      json_read 20 out = some (w, []) ∧
      encode w = encode (Bencode.list [Bencode.str [115, 112, 97, 109]]) :=
  claim_C8 (Bencode.list [Bencode.str [115, 112, 97, 109]]) 20 20
    (by decide) (by decide) (by decide) (by decide)

/-- C9: pushback invariant — for every fuel and every input, well formed or
not, the I/O trace of the whole run satisfies `okEvents`: `unget_character`
is never called twice between two consecutive `get_character` calls, and
every call passes exactly the byte the most recent `get_character`
returned. -/
theorem claim_C9 : ∀ f input, okEvents (convert_value f input).1 = true := by
  intro f input
  unfold okEvents
  exact (ok_all f).1 input none

/-- C10: for every length prefix of at most 49 non-`:` bytes followed by
`:`, every write `read_count` performs into `lenBuf` — the accumulated
prefix bytes at indices `0..k-1` and the terminating null byte at index `k`
— lands at an index strictly below `MAX_INT_LEN = 50`, i.e. in bounds for
`char lenBuf[MAX_INT_LEN]`. -/
theorem claim_C10 : ∀ ds rest f, (∀ d ∈ ds, d ≠ 58) → ds.length + 1 ≤ MAX_INT_LEN →
    ds.length + 1 ≤ f →
    read_count_writes f (ds ++ 58 :: rest) =
      some (List.range' 0 ds.length ++ [ds.length]) ∧
    ∀ w ∈ List.range' 0 ds.length ++ [ds.length], w < MAX_INT_LEN := by
  intro ds rest f h58 hlen hf
  have h := read_count_writes_loop_spec ds 0 rest f h58 (by omega) hf
  constructor
  · unfold read_count_writes
    rw [h]
    simp
  · intro w hw
    rw [List.mem_append, List.mem_range'_1, List.mem_singleton] at hw
    simp only [MAX_INT_LEN] at hlen ⊢
    omega

/-- Witness for C10: parsing the prefix `3:` writes `lenBuf[0]` (the digit)
and `lenBuf[1]` (the null byte), both below 50. -/
theorem claim_C10_witness :
    read_count_writes 5 [51, 58, 97] = some [0, 1] ∧
      ∀ w ∈ [0, 1], w < MAX_INT_LEN := by
  have h := claim_C10 [51] [97] 5 (by decide) (by decide) (by decide)
  simpa using h
